import Mathlib

/-
Verification of the thread-safe hashmap in ts_hashmap.c against its
specification. The embedding is sequential: each C function becomes a pure
Lean function on an explicit map state. Locks only serialize the critical
sections, so the sequential semantics below is the behaviour of each
operation as a whole. C int values are modelled as Int (the source never
overflows them along the verified paths except through the documented
unsigned cast, which is modelled explicitly). NULL-terminated bucket chains
become Lists.
-/

namespace TsHashmap

/-- The sentinel INT_MAX from limits.h, returned for key-not-found:
the maximum representable 32-bit signed integer. -/
def INT_MAX : Int := 2147483647

/-- The struct ts_entry_t: an int key, an int value; the next pointer is
represented by the position in the bucket chain list. -/
structure ts_entry_t where
  key : Int
  value : Int
deriving DecidableEq

/-- The struct ts_hashmap_t: table of bucket chains, capacity, size and
numOps counters. The per-bucket mutexes and the properties spinlock are not
part of the sequential state. -/
structure ts_hashmap_t where
  capacity : Nat
  table : List (List ts_entry_t)
  size : Int
  numOps : Int
deriving DecidableEq

/-- The C cast (unsigned int)key: the value of key modulo 2^32. -/
def unsignedInt (key : Int) : Nat := (key % 4294967296).toNat

/-- The bucket index computed by every operation:
((unsigned int)key) % capacity. -/
def hashIndex (key : Int) (capacity : Nat) : Nat := unsignedInt key % capacity

/-- The bucket chain an operation on the given key scans:
table[hashIndex key capacity], an empty chain for a NULL slot. -/
def bucketOf (map : ts_hashmap_t) (key : Int) : List ts_entry_t :=
  map.table.getD (hashIndex key map.capacity) []

/-- initmap: capacity buckets, every slot NULL, both counters zero. -/
def initmap (capacity : Nat) : ts_hashmap_t :=
  { capacity := capacity
    table := List.replicate capacity []
    size := 0
    numOps := 0 }

/-- The scan loop of get: the value of the first entry whose key matches,
or none when the chain is exhausted. -/
def findValue (key : Int) : List ts_entry_t → Option Int
  | [] => none
  | e :: rest => if e.key = key then some e.value else findValue key rest

/-- get: increment numOps, scan the bucket chain for the key, return the
value found or INT_MAX. -/
def get (map : ts_hashmap_t) (key : Int) : Int × ts_hashmap_t :=
  match findValue key (bucketOf map key) with
  | some v => (v, { map with numOps := map.numOps + 1 })
  | none => (INT_MAX, { map with numOps := map.numOps + 1 })

/-- The scan loop of put: when an entry with the key exists, the pair of
its old value and the chain with that value overwritten in place;
none when the key is absent. -/
def putChain (key value : Int) : List ts_entry_t → Option (Int × List ts_entry_t)
  | [] => none
  | e :: rest =>
    if e.key = key then some (e.value, { e with value := value } :: rest)
    else
      match putChain key value rest with
      | some (old, rest1) => some (old, e :: rest1)
      | none => none

/-- put: scan the bucket chain; on a hit overwrite in place, increment
numOps and return the old value; on a miss link a fresh entry at the head
of the chain, increment numOps and size and return INT_MAX. -/
def put (map : ts_hashmap_t) (key value : Int) : Int × ts_hashmap_t :=
  match putChain key value (bucketOf map key) with
  | some (old, chain1) =>
    (old, { map with table := map.table.set (hashIndex key map.capacity) chain1,
                     numOps := map.numOps + 1 })
  | none =>
    (INT_MAX, { map with
      table := map.table.set (hashIndex key map.capacity)
        (⟨key, value⟩ :: bucketOf map key),
      numOps := map.numOps + 1,
      size := map.size + 1 })

/-- The unlink loop of del: when an entry with the key exists, the pair of
its value and the chain with that first matching entry unlinked;
none when the key is absent. -/
def delChain (key : Int) : List ts_entry_t → Option (Int × List ts_entry_t)
  | [] => none
  | e :: rest =>
    if e.key = key then some (e.value, rest)
    else
      match delChain key rest with
      | some (v, rest1) => some (v, e :: rest1)
      | none => none

/-- del: increment numOps and decrement size unconditionally (the source
does this under the properties lock before touching the bucket), then scan
the bucket chain; on a hit unlink the entry and return its value, on a miss
return INT_MAX with the counters already adjusted. -/
def del (map : ts_hashmap_t) (key : Int) : Int × ts_hashmap_t :=
  match delChain key (bucketOf map key) with
  | some (v, chain1) =>
    (v, { map with table := map.table.set (hashIndex key map.capacity) chain1,
                   numOps := map.numOps + 1,
                   size := map.size - 1 })
  | none =>
    (INT_MAX, { map with numOps := map.numOps + 1, size := map.size - 1 })

/-- One client call of the public interface. -/
inductive MapOp where
  | opGet (key : Int)
  | opPut (key value : Int)
  | opDel (key : Int)
deriving DecidableEq

/-- The state change of one client call (the return value discarded). -/
def applyOp (m : ts_hashmap_t) : MapOp → ts_hashmap_t
  | MapOp.opGet k => (get m k).2
  | MapOp.opPut k v => (put m k v).2
  | MapOp.opDel k => (del m k).2

/-- The map state reached by running a sequence of calls on a fresh map. -/
def runOps (capacity : Nat) (ops : List MapOp) : ts_hashmap_t :=
  ops.foldl applyOp (initmap capacity)

/-- The total number of entries summed across all bucket chains. -/
def totalEntries (m : ts_hashmap_t) : Nat :=
  (m.table.map List.length).sum

/-- One step of runOps that also counts the del calls that found no entry
with their key in the bucket they scanned. -/
def stepCount (p : ts_hashmap_t × Nat) (op : MapOp) : ts_hashmap_t × Nat :=
  (applyOp p.1 op,
   match op with
   | MapOp.opDel k => if (delChain k (bucketOf p.1 k)).isNone then p.2 + 1 else p.2
   | _ => p.2)

/-- runOps paired with the running count of misses by del. -/
def runCount (capacity : Nat) (ops : List MapOp) : ts_hashmap_t × Nat :=
  ops.foldl stepCount (initmap capacity, 0)

/-- The number of del calls in the run that were issued for a key absent
from its bucket at the moment of the call. -/
def missedDelCount (capacity : Nat) (ops : List MapOp) : Nat :=
  (runCount capacity ops).2

/-- Whether a call is a put of the given key. -/
def isPutOf (k : Int) : MapOp → Bool
  | MapOp.opPut k1 _ => k1 == k
  | _ => false

/-- The inductive invariant of a run: the capacity is the one chosen at
construction, the table has one chain per bucket, keys are unique within
each chain, and size is the entry total minus the missed-del count. -/
def Inv (c : Nat) (p : ts_hashmap_t × Nat) : Prop :=
  p.1.capacity = c ∧ p.1.table.length = c ∧
  (∀ ch ∈ p.1.table, (ch.map ts_entry_t.key).Nodup) ∧
  p.1.size = (totalEntries p.1 : Int) - (p.2 : Int)

/- List utilities used by the map-level proofs. -/

theorem getD_set_self {α : Type} (l : List α) (i : Nat) (a d : α)
    (h : i < l.length) : (l.set i a).getD i d = a := by
  induction l generalizing i with
  | nil => simp at h
  | cons x xs ih =>
    cases i with
    | zero => rfl
    | succ j => exact ih j (by simpa using h)

theorem getD_mem {α : Type} (l : List α) (i : Nat) (d : α)
    (h : i < l.length) : l.getD i d ∈ l := by
  induction l generalizing i with
  | nil => simp at h
  | cons x xs ih =>
    cases i with
    | zero => simp [List.getD]
    | succ j =>
      have := ih j (by simpa using h)
      simp [List.getD] at this ⊢
      exact Or.inr this

theorem getD_of_length_le {α : Type} (l : List α) (i : Nat) (d : α)
    (h : l.length ≤ i) : l.getD i d = d := by
  induction l generalizing i with
  | nil => cases i <;> rfl
  | cons x xs ih =>
    cases i with
    | zero => simp at h
    | succ j => exact ih j (by simpa using h)

theorem mem_of_mem_set {α : Type} {l : List α} {i : Nat} {a b : α}
    (h : b ∈ l.set i a) : b ∈ l ∨ b = a := by
  induction l generalizing i with
  | nil => simp at h
  | cons x xs ih =>
    cases i with
    | zero =>
      rcases List.mem_cons.mp h with h1 | h1
      · exact Or.inr h1
      · exact Or.inl (List.mem_cons_of_mem _ h1)
    | succ j =>
      rcases List.mem_cons.mp h with h1 | h1
      · exact Or.inl (h1 ▸ List.mem_cons_self _ _)
      · rcases ih h1 with h2 | h2
        · exact Or.inl (List.mem_cons_of_mem _ h2)
        · exact Or.inr h2

theorem sum_map_length_set {α : Type} (l : List (List α)) (i : Nat)
    (c : List α) (h : i < l.length) :
    ((l.set i c).map List.length).sum + (l.getD i []).length
      = (l.map List.length).sum + c.length := by
  induction l generalizing i with
  | nil => simp at h
  | cons x xs ih =>
    cases i with
    | zero => simp [List.getD]; omega
    | succ j =>
      have := ih j (by simpa using h)
      simp [List.getD] at this ⊢
      omega

/- Chain-level lemmas about the scan loops. -/

theorem findValue_eq_none {k : Int} {ch : List ts_entry_t} :
    findValue k ch = none ↔ ∀ e ∈ ch, e.key ≠ k := by
  induction ch with
  | nil => simp [findValue]
  | cons e rest ih =>
    by_cases hk : e.key = k
    · simp [findValue, hk]
    · cases hp : findValue k rest with
      | none =>
        simp [findValue, hk, hp]
        exact ih.mp hp
      | some v =>
        simp [findValue, hk, hp]
        by_contra hno
        push_neg at hno
        rw [ih.mpr hno] at hp
        exact Option.noConfusion hp

theorem putChain_eq_none {k v : Int} {ch : List ts_entry_t} :
    putChain k v ch = none ↔ ∀ e ∈ ch, e.key ≠ k := by
  induction ch with
  | nil => simp [putChain]
  | cons e rest ih =>
    by_cases hk : e.key = k
    · simp [putChain, hk]
    · cases hp : putChain k v rest with
      | none =>
        simp [putChain, hk, hp]
        exact ih.mp hp
      | some p =>
        simp [putChain, hk, hp]
        by_contra hno
        push_neg at hno
        rw [ih.mpr hno] at hp
        exact Option.noConfusion hp

theorem delChain_eq_none {k : Int} {ch : List ts_entry_t} :
    delChain k ch = none ↔ ∀ e ∈ ch, e.key ≠ k := by
  induction ch with
  | nil => simp [delChain]
  | cons e rest ih =>
    by_cases hk : e.key = k
    · simp [delChain, hk]
    · cases hp : delChain k rest with
      | none =>
        simp [delChain, hk, hp]
        exact ih.mp hp
      | some p =>
        simp [delChain, hk, hp]
        by_contra hno
        push_neg at hno
        rw [ih.mpr hno] at hp
        exact Option.noConfusion hp

theorem putChain_some_keys {k v : Int} {ch : List ts_entry_t} :
    ∀ {old : Int} {ch1 : List ts_entry_t}, putChain k v ch = some (old, ch1) →
    ch1.map ts_entry_t.key = ch.map ts_entry_t.key := by
  induction ch with
  | nil => intro old ch1 h; simp [putChain] at h
  | cons e rest ih =>
    intro old ch1 h
    by_cases hk : e.key = k
    · simp [putChain, hk] at h
      rw [← h.2]
      simp [hk]
    · cases hp : putChain k v rest with
      | none => simp [putChain, hk, hp] at h
      | some p =>
        obtain ⟨o2, c2⟩ := p
        simp [putChain, hk, hp] at h
        rw [← h.2]
        simp [ih hp]

theorem putChain_some_length {k v old : Int} {ch ch1 : List ts_entry_t}
    (h : putChain k v ch = some (old, ch1)) : ch1.length = ch.length := by
  have h1 : (ch1.map ts_entry_t.key).length = (ch.map ts_entry_t.key).length := by
    rw [putChain_some_keys h]
  simpa using h1

theorem delChain_some_sublist {k : Int} {ch : List ts_entry_t} :
    ∀ {v : Int} {ch1 : List ts_entry_t}, delChain k ch = some (v, ch1) →
    ch1.Sublist ch := by
  induction ch with
  | nil => intro v ch1 h; simp [delChain] at h
  | cons e rest ih =>
    intro v ch1 h
    by_cases hk : e.key = k
    · simp [delChain, hk] at h
      exact h.2 ▸ List.sublist_cons_self e rest
    · cases hp : delChain k rest with
      | none => simp [delChain, hk, hp] at h
      | some p =>
        obtain ⟨v2, c2⟩ := p
        simp [delChain, hk, hp] at h
        exact h.2 ▸ List.Sublist.cons₂ e (ih hp)

theorem delChain_some_length {k : Int} {ch : List ts_entry_t} :
    ∀ {v : Int} {ch1 : List ts_entry_t}, delChain k ch = some (v, ch1) →
    ch.length = ch1.length + 1 := by
  induction ch with
  | nil => intro v ch1 h; simp [delChain] at h
  | cons e rest ih =>
    intro v ch1 h
    by_cases hk : e.key = k
    · simp [delChain, hk] at h
      simp [← h.2]
    · cases hp : delChain k rest with
      | none => simp [delChain, hk, hp] at h
      | some p =>
        obtain ⟨v2, c2⟩ := p
        simp [delChain, hk, hp] at h
        rw [← h.2]
        simp [ih hp]

theorem findValue_putChain {k v : Int} {ch : List ts_entry_t} :
    ∀ {old : Int} {ch1 : List ts_entry_t}, putChain k v ch = some (old, ch1) →
    findValue k ch1 = some v := by
  induction ch with
  | nil => intro old ch1 h; simp [putChain] at h
  | cons e rest ih =>
    intro old ch1 h
    by_cases hk : e.key = k
    · simp [putChain, hk] at h
      rw [← h.2]
      simp [findValue]
    · cases hp : putChain k v rest with
      | none => simp [putChain, hk, hp] at h
      | some p =>
        obtain ⟨o2, c2⟩ := p
        simp [putChain, hk, hp] at h
        rw [← h.2]
        simp [findValue, hk, ih hp]

theorem putChain_putChain {k v1 : Int} (v2 : Int) {ch : List ts_entry_t} :
    ∀ {old : Int} {ch1 : List ts_entry_t}, putChain k v1 ch = some (old, ch1) →
    ∃ ch2, putChain k v2 ch1 = some (v1, ch2) := by
  induction ch with
  | nil => intro old ch1 h; simp [putChain] at h
  | cons e rest ih =>
    intro old ch1 h
    by_cases hk : e.key = k
    · simp [putChain, hk] at h
      refine ⟨{ key := k, value := v2 } :: rest, ?_⟩
      rw [← h.2]
      simp [putChain]
    · cases hp : putChain k v1 rest with
      | none => simp [putChain, hk, hp] at h
      | some p =>
        obtain ⟨o2, c2⟩ := p
        simp [putChain, hk, hp] at h
        obtain ⟨ch2, hch2⟩ := ih hp
        refine ⟨e :: ch2, ?_⟩
        rw [← h.2]
        simp [putChain, hk, hch2]

theorem findValue_of_mem {k : Int} {ch : List ts_entry_t} {e : ts_entry_t}
    (hnd : (ch.map ts_entry_t.key).Nodup) (hmem : e ∈ ch) (hk : e.key = k) :
    findValue k ch = some e.value := by
  induction ch with
  | nil => simp at hmem
  | cons x rest ih =>
    rw [List.map_cons, List.nodup_cons] at hnd
    rcases List.mem_cons.mp hmem with h1 | h1
    · rw [← h1]
      simp [findValue, hk]
    · have hxk : x.key ≠ k := by
        intro hxe
        exact hnd.1 (by
          rw [hxe, ← hk]
          exact List.mem_map_of_mem ts_entry_t.key h1)
      simp [findValue, hxk, ih hnd.2 h1]

theorem delChain_nodup_no_key {k : Int} {ch : List ts_entry_t}
    (hnd : (ch.map ts_entry_t.key).Nodup) :
    ∀ {v : Int} {ch1 : List ts_entry_t}, delChain k ch = some (v, ch1) →
    ∀ e ∈ ch1, e.key ≠ k := by
  induction ch with
  | nil => intro v ch1 h; simp [delChain] at h
  | cons x rest ih =>
    intro v ch1 h
    rw [List.map_cons, List.nodup_cons] at hnd
    by_cases hk : x.key = k
    · simp [delChain, hk] at h
      intro e he hek
      exact hnd.1 (by
        rw [hk, ← hek]
        exact List.mem_map_of_mem ts_entry_t.key (h.2 ▸ he))
    · cases hp : delChain k rest with
      | none => simp [delChain, hk, hp] at h
      | some p =>
        obtain ⟨v2, c2⟩ := p
        simp [delChain, hk, hp] at h
        intro e he
        rcases List.mem_cons.mp (h.2 ▸ he) with h1 | h1
        · exact h1 ▸ hk
        · exact ih hnd.2 hp e h1

/- Map-level helper lemmas. -/

theorem hashIndex_lt {c : Nat} (hc : 0 < c) (k : Int) : hashIndex k c < c :=
  Nat.mod_lt _ hc

theorem get_snd (m : ts_hashmap_t) (k : Int) :
    (get m k).2 = { m with numOps := m.numOps + 1 } := by
  cases h : findValue k (bucketOf m k) <;> simp [get, h]

theorem bucketOf_nodup {m : ts_hashmap_t} (k : Int)
    (h : ∀ ch ∈ m.table, (ch.map ts_entry_t.key).Nodup) :
    ((bucketOf m k).map ts_entry_t.key).Nodup := by
  by_cases hlt : hashIndex k m.capacity < m.table.length
  · exact h _ (getD_mem _ _ _ hlt)
  · rw [bucketOf, getD_of_length_le _ _ _ (Nat.le_of_not_lt hlt)]
    simp

theorem absent_bucket {m : ts_hashmap_t} {k : Int} (k1 : Int)
    (habs : ∀ ch ∈ m.table, ∀ e ∈ ch, e.key ≠ k) :
    ∀ e ∈ bucketOf m k1, e.key ≠ k := by
  by_cases hlt : hashIndex k1 m.capacity < m.table.length
  · exact habs _ (getD_mem _ _ _ hlt)
  · rw [bucketOf, getD_of_length_le _ _ _ (Nat.le_of_not_lt hlt)]
    simp

theorem not_mem_keys_of_absent {k : Int} {ch : List ts_entry_t}
    (h : ∀ e ∈ ch, e.key ≠ k) : k ∉ ch.map ts_entry_t.key := by
  intro hc
  obtain ⟨e, he, hek⟩ := List.mem_map.mp hc
  exact h e he hek

theorem applyOp_nodup {m : ts_hashmap_t} (op : MapOp)
    (h : ∀ ch ∈ m.table, (ch.map ts_entry_t.key).Nodup) :
    ∀ ch ∈ (applyOp m op).table, (ch.map ts_entry_t.key).Nodup := by
  cases op with
  | opGet k =>
    rw [applyOp, get_snd]
    exact h
  | opPut k v =>
    cases hp : putChain k v (bucketOf m k) with
    | some p =>
      obtain ⟨o, ch1⟩ := p
      simp only [applyOp, put, hp]
      intro ch hch
      rcases mem_of_mem_set hch with h1 | h1
      · exact h ch h1
      · rw [h1, putChain_some_keys hp]
        exact bucketOf_nodup k h
    | none =>
      simp only [applyOp, put, hp]
      intro ch hch
      rcases mem_of_mem_set hch with h1 | h1
      · exact h ch h1
      · rw [h1, List.map_cons, List.nodup_cons]
        exact ⟨not_mem_keys_of_absent (putChain_eq_none.mp hp), bucketOf_nodup k h⟩
  | opDel k =>
    cases hd : delChain k (bucketOf m k) with
    | some p =>
      obtain ⟨v, ch1⟩ := p
      simp only [applyOp, del, hd]
      intro ch hch
      rcases mem_of_mem_set hch with h1 | h1
      · exact h ch h1
      · rw [h1]
        exact (bucketOf_nodup k h).sublist
          (List.Sublist.map ts_entry_t.key (delChain_some_sublist hd))
    | none =>
      simp only [applyOp, del, hd]
      exact h

theorem applyOp_absent {m : ts_hashmap_t} {k : Int} (op : MapOp)
    (habs : ∀ ch ∈ m.table, ∀ e ∈ ch, e.key ≠ k)
    (hop : isPutOf k op = false) :
    ∀ ch ∈ (applyOp m op).table, ∀ e ∈ ch, e.key ≠ k := by
  cases op with
  | opGet k1 =>
    rw [applyOp, get_snd]
    exact habs
  | opPut k1 v =>
    have hk1 : k1 ≠ k := by simpa [isPutOf] using hop
    cases hp : putChain k1 v (bucketOf m k1) with
    | some p =>
      obtain ⟨o, ch1⟩ := p
      simp only [applyOp, put, hp]
      intro ch hch
      rcases mem_of_mem_set hch with h1 | h1
      · exact habs ch h1
      · intro e he hek
        have hmem : e.key ∈ ch1.map ts_entry_t.key :=
          List.mem_map_of_mem ts_entry_t.key (h1 ▸ he)
        rw [putChain_some_keys hp] at hmem
        obtain ⟨e2, he2, heq⟩ := List.mem_map.mp hmem
        exact absent_bucket k1 habs e2 he2 (heq.trans hek)
    | none =>
      simp only [applyOp, put, hp]
      intro ch hch
      rcases mem_of_mem_set hch with h1 | h1
      · exact habs ch h1
      · intro e he
        rcases List.mem_cons.mp (h1 ▸ he) with h2 | h2
        · rw [h2]
          exact hk1
        · exact absent_bucket k1 habs e h2
  | opDel k1 =>
    cases hd : delChain k1 (bucketOf m k1) with
    | some p =>
      obtain ⟨v, ch1⟩ := p
      simp only [applyOp, del, hd]
      intro ch hch
      rcases mem_of_mem_set hch with h1 | h1
      · exact habs ch h1
      · intro e he
        exact absent_bucket k1 habs e
          ((delChain_some_sublist hd).subset (h1 ▸ he))
    | none =>
      simp only [applyOp, del, hd]
      exact habs

theorem foldl_absent {k : Int} :
    ∀ (ops : List MapOp) (m : ts_hashmap_t),
    (∀ ch ∈ m.table, ∀ e ∈ ch, e.key ≠ k) →
    (∀ op ∈ ops, isPutOf k op = false) →
    ∀ ch ∈ (ops.foldl applyOp m).table, ∀ e ∈ ch, e.key ≠ k := by
  intro ops
  induction ops with
  | nil =>
    intro m hm _
    simpa using hm
  | cons op rest ih =>
    intro m hm hops
    rw [List.foldl_cons]
    exact ih _ (applyOp_absent op hm (hops op (List.mem_cons_self _ _)))
      (fun o ho => hops o (List.mem_cons_of_mem _ ho))

theorem initmap_absent (c : Nat) (k : Int) :
    ∀ ch ∈ (initmap c).table, ∀ e ∈ ch, e.key ≠ k := by
  intro ch hch
  have hnil : ch = [] := List.eq_of_mem_replicate (by simpa [initmap] using hch)
  rw [hnil]
  simp

theorem runOps_absent (c : Nat) (ops : List MapOp) (k : Int)
    (hops : ∀ op ∈ ops, isPutOf k op = false) :
    ∀ ch ∈ (runOps c ops).table, ∀ e ∈ ch, e.key ≠ k :=
  foldl_absent ops (initmap c) (initmap_absent c k) hops

/- The inductive invariant of a run. -/

theorem stepCount_inv {c : Nat} (hc : 0 < c) {p : ts_hashmap_t × Nat}
    (h : Inv c p) (op : MapOp) : Inv c (stepCount p op) := by
  obtain ⟨m, n⟩ := p
  obtain ⟨hcap, hlen, hnd, hsize⟩ := h
  replace hcap : m.capacity = c := hcap
  replace hlen : m.table.length = c := hlen
  replace hnd : ∀ ch ∈ m.table, (ch.map ts_entry_t.key).Nodup := hnd
  replace hsize : m.size = (totalEntries m : Int) - (n : Int) := hsize
  have hidx : ∀ k : Int, hashIndex k m.capacity < m.table.length := by
    intro k
    rw [hlen, ← hcap]
    exact hashIndex_lt (hcap ▸ hc) k
  have hnd1 : ∀ ch ∈ (applyOp m op).table, (ch.map ts_entry_t.key).Nodup :=
    applyOp_nodup op hnd
  cases op with
  | opGet k =>
    have happ : applyOp m (MapOp.opGet k) = { m with numOps := m.numOps + 1 } := by
      simp [applyOp, get_snd]
    have hstep : stepCount (m, n) (MapOp.opGet k) = (applyOp m (MapOp.opGet k), n) := by
      simp [stepCount]
    rw [happ] at hnd1
    rw [hstep, happ]
    exact ⟨hcap, hlen, hnd1, hsize⟩
  | opPut k v =>
    cases hp : putChain k v (bucketOf m k) with
    | some q =>
      obtain ⟨o, ch1⟩ := q
      have happ : applyOp m (MapOp.opPut k v) =
          { m with table := m.table.set (hashIndex k m.capacity) ch1,
                   numOps := m.numOps + 1 } := by
        simp [applyOp, put, hp]
      have hstep : stepCount (m, n) (MapOp.opPut k v) = (applyOp m (MapOp.opPut k v), n) := by
        simp [stepCount]
      rw [happ] at hnd1
      rw [hstep, happ]
      refine ⟨hcap, by simpa using hlen, hnd1, ?_⟩
      have hsum := sum_map_length_set m.table (hashIndex k m.capacity) ch1 (hidx k)
      have hlen1 : ch1.length = (m.table.getD (hashIndex k m.capacity) []).length :=
        putChain_some_length hp
      simp only [totalEntries] at hsize ⊢
      omega
    | none =>
      have happ : applyOp m (MapOp.opPut k v) =
          { m with table := m.table.set (hashIndex k m.capacity)
                     (⟨k, v⟩ :: bucketOf m k),
                   numOps := m.numOps + 1, size := m.size + 1 } := by
        simp [applyOp, put, hp]
      have hstep : stepCount (m, n) (MapOp.opPut k v) = (applyOp m (MapOp.opPut k v), n) := by
        simp [stepCount]
      rw [happ] at hnd1
      rw [hstep, happ]
      refine ⟨hcap, by simpa using hlen, hnd1, ?_⟩
      have hsum := sum_map_length_set m.table (hashIndex k m.capacity)
        (⟨k, v⟩ :: bucketOf m k) (hidx k)
      simp only [bucketOf, List.length_cons] at hsum
      simp only [totalEntries, bucketOf] at hsize ⊢
      omega
  | opDel k =>
    cases hd : delChain k (bucketOf m k) with
    | some q =>
      obtain ⟨v, ch1⟩ := q
      have happ : applyOp m (MapOp.opDel k) =
          { m with table := m.table.set (hashIndex k m.capacity) ch1,
                   numOps := m.numOps + 1, size := m.size - 1 } := by
        simp [applyOp, del, hd]
      have hstep : stepCount (m, n) (MapOp.opDel k) = (applyOp m (MapOp.opDel k), n) := by
        simp [stepCount, hd]
      rw [happ] at hnd1
      rw [hstep, happ]
      refine ⟨hcap, by simpa using hlen, hnd1, ?_⟩
      have hsum := sum_map_length_set m.table (hashIndex k m.capacity) ch1 (hidx k)
      have hlen1 : (m.table.getD (hashIndex k m.capacity) []).length = ch1.length + 1 :=
        delChain_some_length hd
      simp only [totalEntries] at hsize ⊢
      omega
    | none =>
      have happ : applyOp m (MapOp.opDel k) =
          { m with numOps := m.numOps + 1, size := m.size - 1 } := by
        simp [applyOp, del, hd]
      have hstep : stepCount (m, n) (MapOp.opDel k) = (applyOp m (MapOp.opDel k), n + 1) := by
        simp [stepCount, hd]
      rw [happ] at hnd1
      rw [hstep, happ]
      refine ⟨hcap, hlen, hnd1, ?_⟩
      simp only [totalEntries] at hsize ⊢
      omega

theorem foldl_stepCount_inv {c : Nat} (hc : 0 < c) :
    ∀ (ops : List MapOp) (p : ts_hashmap_t × Nat), Inv c p →
    Inv c (ops.foldl stepCount p) := by
  intro ops
  induction ops with
  | nil =>
    intro p h
    simpa using h
  | cons op rest ih =>
    intro p h
    rw [List.foldl_cons]
    exact ih _ (stepCount_inv hc h op)

theorem initmap_inv (c : Nat) : Inv c (initmap c, 0) := by
  refine ⟨rfl, by simp [initmap], ?_, ?_⟩
  · intro ch hch
    have hnil : ch = [] := List.eq_of_mem_replicate (by simpa [initmap] using hch)
    rw [hnil]
    simp
  · simp [initmap, totalEntries]

theorem runCount_inv (c : Nat) (hc : 0 < c) (ops : List MapOp) :
    Inv c (runCount c ops) :=
  foldl_stepCount_inv hc ops _ (initmap_inv c)

theorem foldl_stepCount_fst :
    ∀ (ops : List MapOp) (m : ts_hashmap_t) (n : Nat),
    (ops.foldl stepCount (m, n)).1 = ops.foldl applyOp m := by
  intro ops
  induction ops with
  | nil =>
    intro m n
    rfl
  | cons op rest ih =>
    intro m n
    rw [List.foldl_cons, List.foldl_cons]
    have hpair : stepCount (m, n) op = ((stepCount (m, n) op).1, (stepCount (m, n) op).2) :=
      rfl
    rw [hpair, ih]
    rfl

theorem runCount_fst (c : Nat) (ops : List MapOp) :
    (runCount c ops).1 = runOps c ops :=
  foldl_stepCount_fst ops (initmap c) 0

theorem runOps_inv (c : Nat) (hc : 0 < c) (ops : List MapOp) :
    Inv c (runOps c ops, missedDelCount c ops) := by
  have h := runCount_inv c hc ops
  rw [show runCount c ops = ((runCount c ops).1, (runCount c ops).2) from rfl,
      runCount_fst] at h
  exact h

/-- What put produces: the bucket chain is replaced by a chain holding the
value at the key, and a later putChain of the same key on it finds that
value. -/
theorem put_result (m : ts_hashmap_t) (k v : Int) :
    ∃ ch1, (put m k v).2.table = m.table.set (hashIndex k m.capacity) ch1 ∧
      (put m k v).2.capacity = m.capacity ∧
      (put m k v).2.numOps = m.numOps + 1 ∧
      findValue k ch1 = some v ∧
      (∀ v2, ∃ ch2, putChain k v2 ch1 = some (v, ch2) ∧ findValue k ch2 = some v2) := by
  cases hp : putChain k v (bucketOf m k) with
  | some q =>
    obtain ⟨o, ch1⟩ := q
    refine ⟨ch1, by simp [put, hp], by simp [put, hp], by simp [put, hp],
      findValue_putChain hp, ?_⟩
    intro v2
    obtain ⟨ch2, hch2⟩ := putChain_putChain v2 hp
    exact ⟨ch2, hch2, findValue_putChain hch2⟩
  | none =>
    refine ⟨⟨k, v⟩ :: bucketOf m k, by simp [put, hp], by simp [put, hp],
      by simp [put, hp], by simp [findValue], ?_⟩
    intro v2
    exact ⟨⟨k, v2⟩ :: bucketOf m k, by simp [putChain], by simp [findValue]⟩

/-- The field equations of put when the scan finds the key. -/
theorem put_some_fields {m : ts_hashmap_t} {k v o : Int} {ch1 : List ts_entry_t}
    (h : putChain k v (bucketOf m k) = some (o, ch1)) :
    (put m k v).1 = o ∧
    (put m k v).2.table = m.table.set (hashIndex k m.capacity) ch1 ∧
    (put m k v).2.capacity = m.capacity ∧
    (put m k v).2.size = m.size ∧
    (put m k v).2.numOps = m.numOps + 1 := by
  simp [put, h]

/-- The first component of get when the scan finds the value. -/
theorem get_fst_some {m : ts_hashmap_t} {k v : Int}
    (h : findValue k (bucketOf m k) = some v) : (get m k).1 = v := by
  simp [get, h]

/- Claim theorems. -/

/-- C1, counterexample: the claimed invariant that size equals the total
entry count in every reachable quiescent state is false: after a del of an
absent key on a fresh map of capacity 1, size is -1 while the chains hold
0 entries. -/
theorem size_counter_cex :
    (runOps 1 [MapOp.opDel 0]).size
      ≠ (totalEntries (runOps 1 [MapOp.opDel 0]) : Int) := by
  decide

/-- C1, amended: in every reachable quiescent state, size equals the total
number of entries across all bucket chains minus the number of del calls
of the run that were issued for a key absent at the time of the call. -/
theorem size_eq_totalEntries_sub_missedDels (c : Nat) (ops : List MapOp)
    (hc : 0 < c) :
    (runOps c ops).size
      = (totalEntries (runOps c ops) : Int) - (missedDelCount c ops : Int) :=
  (runOps_inv c hc ops).2.2.2

/-- Witness for the amended C1 at capacity 2, one put and one missed del. -/
theorem size_eq_totalEntries_sub_missedDels_witness :
    0 < 2 ∧ (runOps 2 [MapOp.opPut 1 10, MapOp.opDel 5]).size
      = (totalEntries (runOps 2 [MapOp.opPut 1 10, MapOp.opDel 5]) : Int)
        - (missedDelCount 2 [MapOp.opPut 1 10, MapOp.opDel 5] : Int) :=
  ⟨by decide,
   size_eq_totalEntries_sub_missedDels 2 [MapOp.opPut 1 10, MapOp.opDel 5] (by decide)⟩

/-- C2: del of a key absent from the map returns the sentinel, creates no
entry and leaves every bucket chain unchanged, and still increments numOps
and decrements size. -/
theorem del_absent_key (m : ts_hashmap_t) (k : Int)
    (habs : ∀ ch ∈ m.table, ∀ e ∈ ch, e.key ≠ k) :
    (del m k).1 = INT_MAX ∧ (del m k).2.table = m.table ∧
    (del m k).2.numOps = m.numOps + 1 ∧ (del m k).2.size = m.size - 1 ∧
    (del m k).2.capacity = m.capacity := by
  have hnone : delChain k (bucketOf m k) = none :=
    delChain_eq_none.mpr (absent_bucket k habs)
  simp [del, hnone]

/-- Witness for C2: del of key 5 on an empty map of capacity 2. -/
theorem del_absent_key_witness :
    (∀ ch ∈ (initmap 2).table, ∀ e ∈ ch, e.key ≠ 5) ∧
    ((del (initmap 2) 5).1 = INT_MAX ∧
     (del (initmap 2) 5).2.table = (initmap 2).table ∧
     (del (initmap 2) 5).2.numOps = (initmap 2).numOps + 1 ∧
     (del (initmap 2) 5).2.size = (initmap 2).size - 1 ∧
     (del (initmap 2) 5).2.capacity = (initmap 2).capacity) :=
  ⟨by decide, del_absent_key (initmap 2) 5 (by decide)⟩

/-- C3: get returns the value of the entry carrying the key in bucket
unsigned(key) mod capacity when one exists (under the per-bucket key
uniqueness invariant), returns INT_MAX when the chain has no match, and in
particular returns INT_MAX for a key never put during the run. -/
theorem get_found_or_sentinel (m : ts_hashmap_t) (k : Int) :
    (∀ e ∈ bucketOf m k, ((bucketOf m k).map ts_entry_t.key).Nodup →
      e.key = k → (get m k).1 = e.value) ∧
    ((∀ e ∈ bucketOf m k, e.key ≠ k) → (get m k).1 = INT_MAX) ∧
    (∀ c ops, m = runOps c ops → (∀ op ∈ ops, isPutOf k op = false) →
      (get m k).1 = INT_MAX) := by
  refine ⟨?_, ?_, ?_⟩
  · intro e he hnd hek
    simp [get, findValue_of_mem hnd he hek]
  · intro habs
    simp [get, findValue_eq_none.mpr habs]
  · intro c ops hm hops
    subst hm
    have habs := runOps_absent c ops k hops
    simp [get, findValue_eq_none.mpr (absent_bucket k habs)]

/-- Witness for C3: a stored key is found with its value, and a key never
inserted yields the sentinel. -/
theorem get_found_or_sentinel_witness :
    ((⟨1, 10⟩ : ts_entry_t) ∈ bucketOf (put (initmap 2) 1 10).2 1 ∧
     ((bucketOf (put (initmap 2) 1 10).2 1).map ts_entry_t.key).Nodup ∧
     (get (put (initmap 2) 1 10).2 1).1 = 10) ∧
    ((get (runOps 2 [MapOp.opPut 1 10]) 5).1 = INT_MAX) :=
  ⟨⟨by decide, by decide,
    (get_found_or_sentinel (put (initmap 2) 1 10).2 1).1 ⟨1, 10⟩
      (by decide) (by decide) (by decide)⟩,
   (get_found_or_sentinel (runOps 2 [MapOp.opPut 1 10]) 5).2.2 2
     [MapOp.opPut 1 10] rfl (by decide)⟩

/-- C4: putting k twice in a row makes the second put return the first
value, a subsequent get return the second value, and leaves size unchanged
by the second put. -/
theorem put_put_same_key (m : ts_hashmap_t) (k v1 v2 : Int)
    (hlen : m.table.length = m.capacity) (hc : 0 < m.capacity) :
    (put (put m k v1).2 k v2).1 = v1 ∧
    (get (put (put m k v1).2 k v2).2 k).1 = v2 ∧
    (put (put m k v1).2 k v2).2.size = (put m k v1).2.size := by
  have hidx : hashIndex k m.capacity < m.table.length := by
    rw [hlen]
    exact hashIndex_lt hc k
  obtain ⟨ch1, htab1, hcap1, _, _, hnext⟩ := put_result m k v1
  obtain ⟨ch2, hch2, hfind2⟩ := hnext v2
  have hb1 : bucketOf (put m k v1).2 k = ch1 := by
    rw [bucketOf, htab1, hcap1]
    exact getD_set_self _ _ _ _ hidx
  have hput2 : putChain k v2 (bucketOf (put m k v1).2 k) = some (v1, ch2) := by
    rw [hb1]
    exact hch2
  obtain ⟨hfst2, htab2, hcap2, hsize2, _⟩ := put_some_fields hput2
  refine ⟨hfst2, ?_, hsize2⟩
  have hb2 : bucketOf (put (put m k v1).2 k v2).2 k = ch2 := by
    rw [bucketOf, htab2, hcap2, hcap1]
    refine getD_set_self _ _ _ _ ?_
    rw [htab1]
    simpa using hidx
  exact get_fst_some (by rw [hb2]; exact hfind2)

/-- Witness for C4 on a fresh map of capacity 2, key 1, values 10 then 20. -/
theorem put_put_same_key_witness :
    (initmap 2).table.length = (initmap 2).capacity ∧ 0 < (initmap 2).capacity ∧
    ((put (put (initmap 2) 1 10).2 1 20).1 = 10 ∧
     (get (put (put (initmap 2) 1 10).2 1 20).2 1).1 = 20 ∧
     (put (put (initmap 2) 1 10).2 1 20).2.size = (put (initmap 2) 1 10).2.size) :=
  ⟨by decide, by decide, put_put_same_key (initmap 2) 1 10 20 (by decide) (by decide)⟩

/-- C5: put of an absent key links a fresh entry at the head of the chain
of bucket unsigned(key) mod capacity, with the previous head as its
successor, returns INT_MAX, and increments numOps and size by one. -/
theorem put_absent_key (m : ts_hashmap_t) (k v : Int)
    (habs : ∀ ch ∈ m.table, ∀ e ∈ ch, e.key ≠ k) :
    (put m k v).1 = INT_MAX ∧
    (put m k v).2.table
      = m.table.set (hashIndex k m.capacity) (⟨k, v⟩ :: bucketOf m k) ∧
    (put m k v).2.numOps = m.numOps + 1 ∧
    (put m k v).2.size = m.size + 1 ∧
    (put m k v).2.capacity = m.capacity := by
  have hnone : putChain k v (bucketOf m k) = none :=
    putChain_eq_none.mpr (absent_bucket k habs)
  simp [put, hnone]

/-- Witness for C5: key 1 put into an empty map of capacity 2. -/
theorem put_absent_key_witness :
    (∀ ch ∈ (initmap 2).table, ∀ e ∈ ch, e.key ≠ 1) ∧
    ((put (initmap 2) 1 10).1 = INT_MAX ∧
     (put (initmap 2) 1 10).2.table
       = (initmap 2).table.set (hashIndex 1 (initmap 2).capacity)
           (⟨1, 10⟩ :: bucketOf (initmap 2) 1) ∧
     (put (initmap 2) 1 10).2.numOps = (initmap 2).numOps + 1 ∧
     (put (initmap 2) 1 10).2.size = (initmap 2).size + 1 ∧
     (put (initmap 2) 1 10).2.capacity = (initmap 2).capacity) :=
  ⟨by decide, put_absent_key (initmap 2) 1 10 (by decide)⟩

/-- C6: put of k immediately followed by get of k returns the value just
put, whether or not k was present before. -/
theorem put_then_get (m : ts_hashmap_t) (k v : Int)
    (hlen : m.table.length = m.capacity) (hc : 0 < m.capacity) :
    (get (put m k v).2 k).1 = v := by
  have hidx : hashIndex k m.capacity < m.table.length := by
    rw [hlen]
    exact hashIndex_lt hc k
  obtain ⟨ch1, htab1, hcap1, _, hfind1, _⟩ := put_result m k v
  have hb1 : bucketOf (put m k v).2 k = ch1 := by
    rw [bucketOf, htab1, hcap1]
    exact getD_set_self _ _ _ _ hidx
  simp [get, hb1, hfind1]

/-- Witness for C6 on a fresh map of capacity 2. -/
theorem put_then_get_witness :
    (initmap 2).table.length = (initmap 2).capacity ∧ 0 < (initmap 2).capacity ∧
    (get (put (initmap 2) 1 10).2 1).1 = 10 :=
  ⟨by decide, by decide, put_then_get (initmap 2) 1 10 (by decide) (by decide)⟩

/-- C7: del of k followed by get of k returns the sentinel, for every map
state satisfying the per-bucket key-uniqueness invariant of the data
model. -/
theorem del_then_get (m : ts_hashmap_t) (k : Int)
    (hnd : ((bucketOf m k).map ts_entry_t.key).Nodup) :
    (get (del m k).2 k).1 = INT_MAX := by
  cases hd : delChain k (bucketOf m k) with
  | none =>
    have htabd : (del m k).2.table = m.table := by simp [del, hd]
    have hcapd : (del m k).2.capacity = m.capacity := by simp [del, hd]
    have hb : bucketOf (del m k).2 k = bucketOf m k := by
      rw [bucketOf, htabd, hcapd]
      rfl
    have hf : findValue k (bucketOf m k) = none :=
      findValue_eq_none.mpr (delChain_eq_none.mp hd)
    simp [get, hb, hf]
  | some q =>
    obtain ⟨v, ch1⟩ := q
    have htabd : (del m k).2.table = m.table.set (hashIndex k m.capacity) ch1 := by
      simp [del, hd]
    have hcapd : (del m k).2.capacity = m.capacity := by simp [del, hd]
    have hno : ∀ e ∈ ch1, e.key ≠ k := delChain_nodup_no_key hnd hd
    by_cases hidx : hashIndex k m.capacity < m.table.length
    · have hb : bucketOf (del m k).2 k = ch1 := by
        rw [bucketOf, htabd, hcapd]
        exact getD_set_self _ _ _ _ hidx
      simp [get, hb, findValue_eq_none.mpr hno]
    · exfalso
      rw [bucketOf, getD_of_length_le _ _ _ (Nat.le_of_not_lt hidx)] at hd
      simp [delChain] at hd

/-- Witness for C7: deleting key 1 after putting it, then getting it. -/
theorem del_then_get_witness :
    ((bucketOf (put (initmap 2) 1 10).2 1).map ts_entry_t.key).Nodup ∧
    (get (del (put (initmap 2) 1 10).2 1).2 1).1 = INT_MAX :=
  ⟨by decide, del_then_get (put (initmap 2) 1 10).2 1 (by decide)⟩

/-- C8: each of get, put and del preserves the invariant that every bucket
chain carries at most one entry per key. -/
theorem op_preserves_key_uniqueness (m : ts_hashmap_t) (op : MapOp)
    (h : ∀ ch ∈ m.table, (ch.map ts_entry_t.key).Nodup) :
    ∀ ch ∈ (applyOp m op).table, (ch.map ts_entry_t.key).Nodup :=
  applyOp_nodup op h

/-- Witness for C8: a put of key 1 on a map already holding key 1. -/
theorem op_preserves_key_uniqueness_witness :
    (∀ ch ∈ (put (initmap 2) 1 10).2.table, (ch.map ts_entry_t.key).Nodup) ∧
    (∀ ch ∈ (applyOp (put (initmap 2) 1 10).2 (MapOp.opPut 1 20)).table,
      (ch.map ts_entry_t.key).Nodup) :=
  ⟨by decide,
   op_preserves_key_uniqueness (put (initmap 2) 1 10).2 (MapOp.opPut 1 20) (by decide)⟩

/-- C10: get changes nothing but numOps, which it increments by exactly
one: capacity, size and every bucket chain are untouched, found or not. -/
theorem get_frame (m : ts_hashmap_t) (k : Int) :
    (get m k).2.capacity = m.capacity ∧ (get m k).2.size = m.size ∧
    (get m k).2.table = m.table ∧ (get m k).2.numOps = m.numOps + 1 := by
  rw [get_snd]
  exact ⟨rfl, rfl, rfl, rfl⟩

end TsHashmap
